import Mathlib

/-!
# Verification of the DocComparison conversion / normalization / comparison pipeline

Shallow embedding of the repository's core functions:
* `src/app/text_utils.py` : `remove_arabic_chars`, `remove_duplicate_lines`
* `src/app/export.py`     : `markdown_to_json`
* `src/app/compare.py`    : `compare_files`
* `src/app/converter.py`  : `convert_to_markdown`
* `app.py` (comparison tab): unified diff display with truncation

Text is modelled as `List Char`; a file's content is one such list, a line is
one such list.  Python line boundaries are modelled as the newline character
(the only terminator produced by this repository's own writers).  Machine-level
concerns (file handles, Streamlit UI) are abstracted away; file reads/writes
become function arguments and results.
-/

namespace DocComparison

/-! ## Basic character/list utilities shared by the models -/

/-- Whitespace characters recognised by Python `str.strip` (ASCII subset). -/
def isSpaceChar (c : Char) : Bool :=
  c = ' ' || c = '\t' || c = '\n' || c = '\r' || c = Char.ofNat 11 || c = Char.ofNat 12

/-- Python `str.strip()` on a line: drop leading and trailing whitespace. -/
def trimChars (l : List Char) : List Char :=
  ((l.dropWhile isSpaceChar).reverse.dropWhile isSpaceChar).reverse

/-- Python `str.rstrip("\n")`: drop trailing newline characters. -/
def rstripNewlines (l : List Char) : List Char :=
  (l.reverse.dropWhile (fun c => c = '\n')).reverse

/-- Python `str.splitlines()` restricted to `"\n"` boundaries (the only line
terminator this repository's files contain): no trailing empty line is produced
for a trailing newline, and the empty string yields no lines. -/
def splitlinesC : List Char → List (List Char)
  | [] => []
  | c :: cs =>
    if c = '\n' then [] :: splitlinesC cs
    else
      match splitlinesC cs with
      | [] => [[c]]
      | l :: ls => (c :: l) :: ls

/-- `sep.join(xs)` from Python. -/
def joinWithC (sep : List Char) : List (List Char) → List Char
  | [] => []
  | [x] => x
  | x :: y :: xs => x ++ sep ++ joinWithC sep (y :: xs)

/-- The writer in `remove_duplicate_lines`: `"\n".join(out_lines) + "\n"`. -/
def renderLines (ls : List (List Char)) : List Char :=
  joinWithC ['\n'] ls ++ ['\n']

/-! ## `src/app/text_utils.py` -/

/-- Membership of a code point in the Arabic Unicode ranges matched by
`_ARABIC_RANGES_PATTERN` (basic, supplement, extended, presentation forms). -/
def isArabicChar (c : Char) : Bool :=
  (0x0600 ≤ c.toNat && c.toNat ≤ 0x06FF) ||
  (0x0750 ≤ c.toNat && c.toNat ≤ 0x077F) ||
  (0x08A0 ≤ c.toNat && c.toNat ≤ 0x08FF) ||
  (0xFB50 ≤ c.toNat && c.toNat ≤ 0xFDFF) ||
  (0xFE70 ≤ c.toNat && c.toNat ≤ 0xFEFF)

/-- `remove_arabic_chars`: `re.sub(_ARABIC_RANGES_PATTERN, "", content)`.
Replacing every maximal run of range characters by the empty string deletes
exactly the characters lying in the ranges, so the substitution is the
character filter. -/
def remove_arabic_chars (content : List Char) : List Char :=
  content.filter (fun c => !(isArabicChar c))

/-- The inner cell loop of `remove_duplicate_lines`: walk the cells of a
pipe-split table row carrying `prev_cell` (`Option`, `none` for Python `None`);
a cell is appended iff its stripped form differs from `prev_cell` or is empty,
and `prev_cell` is updated only when the cell is appended. -/
def dedupCells : List (List Char) → Option (List Char) → List (List Char)
  | [], _ => []
  | c :: cs, prev =>
    if some (trimChars c) ≠ prev ∨ trimChars c = [] then
      c :: dedupCells cs (some (trimChars c))
    else
      dedupCells cs prev

/-- Python `line.split("|")`. -/
def splitPipe : List Char → List (List Char)
  | [] => [[]]
  | c :: cs =>
    if c = '|' then [] :: splitPipe cs
    else
      match splitPipe cs with
      | [] => [[c]]
      | l :: ls => (c :: l) :: ls

/-- Python `"|".join(cells)`. -/
def joinPipe (cells : List (List Char)) : List Char :=
  joinWithC ['|'] cells

/-- The per-line table transformation of `remove_duplicate_lines`: rows that
start with a pipe have adjacent repeated cells collapsed, other lines pass
through unchanged. -/
def processLine (l : List Char) : List Char :=
  if l.head? = some '|' then joinPipe (dedupCells (splitPipe l) none)
  else l

/-- The seen-set loop shared by `remove_duplicate_lines` (with
`f = processLine`) and `markdown_to_json` (with `f = rstripNewlines`): each
incoming line is transformed by `f`, then kept iff not seen before; the Python
`set` is modelled as the list of kept lines, used only through membership. -/
def dedupBy (f : List Char → List Char) : List (List Char) → List (List Char) → List (List Char)
  | [], _ => []
  | l :: ls, seen =>
    if f l ∈ seen then dedupBy f ls seen
    else f l :: dedupBy f ls (f l :: seen)

/-- `remove_duplicate_lines`: read, split into lines, table-aware dedup with
first-occurrence retention, write `"\n".join(out_lines) + "\n"`. -/
def remove_duplicate_lines (content : List Char) : List Char :=
  renderLines (dedupBy processLine (splitlinesC content) [])

/-! ## `src/app/export.py` -/

/-- Decimal/hex digit for JSON `\u00XX` escapes. -/
def hexDigitChar (n : Nat) : Char :=
  if n < 10 then Char.ofNat (48 + n) else Char.ofNat (87 + n)

/-- `json.dumps` escaping of one character with `ensure_ascii=False`: only the
quote, the backslash and control characters are escaped; every other character
(including non-ASCII) is emitted literally. -/
def jsonEscapeChar (c : Char) : List Char :=
  if c = '"' then ['\\', '"']
  else if c = '\\' then ['\\', '\\']
  else if c = '\n' then ['\\', 'n']
  else if c = '\r' then ['\\', 'r']
  else if c = '\t' then ['\\', 't']
  else if c = Char.ofNat 8 then ['\\', 'b']
  else if c = Char.ofNat 12 then ['\\', 'f']
  else if c.toNat < 0x20 then
    ['\\', 'u', '0', '0', hexDigitChar (c.toNat / 16), hexDigitChar (c.toNat % 16)]
  else [c]

/-- A JSON string literal for one line. -/
def jsonStringLit (l : List Char) : List Char :=
  '"' :: (l.map jsonEscapeChar).flatten ++ ['"']

/-- `json.dumps(strings, indent=4, ensure_ascii=False)`: `[]` for the empty
list, otherwise one element per line indented by four spaces, elements
separated by `",\n"`, closed by a newline and `]` in column zero. -/
def jsonDumpsIndent4 (xs : List (List Char)) : List Char :=
  match xs with
  | [] => ['[', ']']
  | _ =>
    ['[', '\n'] ++
      joinWithC [',', '\n'] (xs.map (fun l => [' ', ' ', ' ', ' '] ++ jsonStringLit l)) ++
      ['\n', ']']

/-- `markdown_to_json`: split the markdown into lines, strip trailing newlines
from each (a no-op after `splitlines`), keep first occurrences only, and
serialize with `json.dumps(..., indent=4, ensure_ascii=False)`. -/
def markdown_to_json (content : List Char) : List Char :=
  jsonDumpsIndent4 (dedupBy rstripNewlines (splitlinesC content) [])

/-! ## Specification-side characterization of first-occurrence deduplication

Stated from the spec's words ("a line is retained the first time it is seen
and dropped on every subsequent exact repeat; relative order of retained lines
is the order of their first occurrence"), to be compared with the loop above:
keep the head, deduplicate the tail, and remove the later repeats of the
head. -/
def firstOccDedup {α : Type} [DecidableEq α] : List α → List α
  | [] => []
  | a :: as => a :: (firstOccDedup as).filter (fun x => x ≠ a)

/-! ### Helper lemmas about the dedup loop -/

theorem dedupBy_eq_filter_firstOccDedup (f : List Char → List Char) :
    ∀ (ls : List (List Char)) (seen : List (List Char)),
      dedupBy f ls seen = (firstOccDedup (ls.map f)).filter (fun x => decide (x ∉ seen)) := by
  intro ls
  induction ls with
  | nil => intro seen; simp [dedupBy, firstOccDedup]
  | cons l ls ih =>
    intro seen
    by_cases h : f l ∈ seen
    · rw [show dedupBy f (l :: ls) seen = dedupBy f ls seen by simp [dedupBy, h]]
      rw [ih seen]
      simp only [List.map_cons, firstOccDedup, List.filter_cons]
      rw [if_neg (by simpa using h)]
      rw [List.filter_filter]
      apply List.filter_congr
      intro x _
      by_cases hx : x ∈ seen
      · simp [hx]
      · have hne : x ≠ f l := fun he => hx (he ▸ h)
        simp [hx, hne]
    · rw [show dedupBy f (l :: ls) seen = f l :: dedupBy f ls (f l :: seen) by
        simp [dedupBy, h]]
      rw [ih (f l :: seen)]
      simp only [List.map_cons, firstOccDedup, List.filter_cons]
      rw [if_pos (by simpa using h)]
      congr 1
      rw [List.filter_filter]
      apply List.filter_congr
      intro x _
      by_cases hx : x ∈ seen
      · simp [hx]
      · by_cases hl : x = f l
        · simp [hl]
        · simp [hx, hl]

/-- At an empty seen set, the dedup loop is exactly first-occurrence
 deduplication of the transformed lines. -/
theorem dedupBy_nil (f : List Char → List Char) (ls : List (List Char)) :
    dedupBy f ls [] = firstOccDedup (ls.map f) := by
  rw [dedupBy_eq_filter_firstOccDedup]
  apply List.filter_eq_self.mpr
  intro a _
  simp

theorem mem_dedupBy_not_seen (f : List Char → List Char) :
    ∀ (ls seen : List (List Char)) (x : List Char),
      x ∈ dedupBy f ls seen → x ∉ seen := by
  intro ls
  induction ls with
  | nil => intro seen x hx; simp [dedupBy] at hx
  | cons l ls ih =>
    intro seen x hx
    by_cases h : f l ∈ seen
    · rw [show dedupBy f (l :: ls) seen = dedupBy f ls seen by simp [dedupBy, h]] at hx
      exact ih seen x hx
    · rw [show dedupBy f (l :: ls) seen = f l :: dedupBy f ls (f l :: seen) by
        simp [dedupBy, h]] at hx
      rcases List.mem_cons.mp hx with rfl | hx
      · exact h
      · intro hmem
        exact ih (f l :: seen) x hx (List.mem_cons_of_mem _ hmem)

theorem mem_dedupBy_image (f : List Char → List Char) :
    ∀ (ls seen : List (List Char)) (x : List Char),
      x ∈ dedupBy f ls seen → ∃ y ∈ ls, x = f y := by
  intro ls
  induction ls with
  | nil => intro seen x hx; simp [dedupBy] at hx
  | cons l ls ih =>
    intro seen x hx
    by_cases h : f l ∈ seen
    · rw [show dedupBy f (l :: ls) seen = dedupBy f ls seen by simp [dedupBy, h]] at hx
      obtain ⟨y, hy, he⟩ := ih seen x hx
      exact ⟨y, List.mem_cons_of_mem _ hy, he⟩
    · rw [show dedupBy f (l :: ls) seen = f l :: dedupBy f ls (f l :: seen) by
        simp [dedupBy, h]] at hx
      rcases List.mem_cons.mp hx with rfl | hx
      · exact ⟨l, List.mem_cons_self _ _, rfl⟩
      · obtain ⟨y, hy, he⟩ := ih (f l :: seen) x hx
        exact ⟨y, List.mem_cons_of_mem _ hy, he⟩

theorem dedupBy_nodup (f : List Char → List Char) :
    ∀ (ls seen : List (List Char)), (dedupBy f ls seen).Nodup := by
  intro ls
  induction ls with
  | nil => intro seen; simp [dedupBy]
  | cons l ls ih =>
    intro seen
    by_cases h : f l ∈ seen
    · rw [show dedupBy f (l :: ls) seen = dedupBy f ls seen by simp [dedupBy, h]]
      exact ih seen
    · rw [show dedupBy f (l :: ls) seen = f l :: dedupBy f ls (f l :: seen) by
        simp [dedupBy, h]]
      refine List.nodup_cons.mpr ⟨?_, ih (f l :: seen)⟩
      intro hmem
      exact mem_dedupBy_not_seen f ls (f l :: seen) (f l) hmem (List.mem_cons_self _ _)

/-- A list of pairwise-distinct fixed points of `f`, disjoint from the seen
set, passes through the dedup loop unchanged. -/
theorem dedupBy_fixed (f : List Char → List Char) :
    ∀ (out seen : List (List Char)),
      (∀ x ∈ out, f x = x) → out.Nodup → (∀ x ∈ out, x ∉ seen) →
      dedupBy f out seen = out := by
  intro out
  induction out with
  | nil => intro seen _ _ _; simp [dedupBy]
  | cons l ls ih =>
    intro seen hfix hnd hdis
    have hfl : f l = l := hfix l (List.mem_cons_self _ _)
    have hls : l ∉ seen := hdis l (List.mem_cons_self _ _)
    rw [show dedupBy f (l :: ls) seen = f l :: dedupBy f ls (f l :: seen) by
      simp [dedupBy, hfl, hls]]
    rw [hfl]
    congr 1
    apply ih (l :: seen)
    · intro x hx; exact hfix x (List.mem_cons_of_mem _ hx)
    · exact (List.nodup_cons.mp hnd).2
    · intro x hx
      rw [List.mem_cons]
      push_neg
      constructor
      · intro he; exact (List.nodup_cons.mp hnd).1 (he ▸ hx)
      · exact hdis x (List.mem_cons_of_mem _ hx)

/-! ### Lemmas about line splitting and joining -/

/-- `lineBlocks ls` is the concatenation of the lines each followed by a
newline; for nonempty `ls` it coincides with `renderLines ls`. -/
def lineBlocks : List (List Char) → List Char
  | [] => []
  | l :: ls => l ++ '\n' :: lineBlocks ls

theorem renderLines_eq_lineBlocks :
    ∀ (ls : List (List Char)), ls ≠ [] → renderLines ls = lineBlocks ls := by
  intro ls
  induction ls with
  | nil => intro h; exact absurd rfl h
  | cons l ls ih =>
    intro _
    cases ls with
    | nil => simp [renderLines, joinWithC, lineBlocks]
    | cons m ms =>
      have := ih (by simp)
      simp only [renderLines, joinWithC, lineBlocks] at *
      simp [this.symm, renderLines]

theorem splitlinesC_noNewline :
    ∀ (s : List Char) (l : List Char), l ∈ splitlinesC s → '\n' ∉ l := by
  intro s
  induction s with
  | nil => intro l hl; simp [splitlinesC] at hl
  | cons c cs ih =>
    intro l hl
    by_cases hc : c = '\n'
    · rw [show splitlinesC (c :: cs) = [] :: splitlinesC cs by simp [splitlinesC, hc]] at hl
      rcases List.mem_cons.mp hl with rfl | hl
      · simp
      · exact ih l hl
    · rw [show splitlinesC (c :: cs) =
          (match splitlinesC cs with
           | [] => [[c]]
           | m :: ms => (c :: m) :: ms) by simp [splitlinesC, hc]] at hl
      cases hcs : splitlinesC cs with
      | nil =>
        rw [hcs] at hl
        simp only [List.mem_singleton] at hl
        subst hl
        simp [hc, Ne.symm hc]
      | cons m ms =>
        rw [hcs] at hl
        rcases List.mem_cons.mp hl with rfl | hl
        · intro hmem
          rcases List.mem_cons.mp hmem with he | hmem
          · exact hc he.symm
          · exact ih m (hcs ▸ List.mem_cons_self _ _) hmem
        · exact ih l (hcs ▸ List.mem_cons_of_mem _ hl)

theorem splitlinesC_append_newline (t : List Char) :
    ∀ (l : List Char), '\n' ∉ l → splitlinesC (l ++ '\n' :: t) = l :: splitlinesC t := by
  intro l
  induction l with
  | nil => intro _; simp [splitlinesC]
  | cons c l ih =>
    intro h
    have hc : c ≠ '\n' := fun he => h (he ▸ List.mem_cons_self _ _)
    have hrec := ih (fun hm => h (List.mem_cons_of_mem _ hm))
    simp only [List.cons_append, splitlinesC, hc, if_false]
    rw [show l.append ('\n' :: t) = l ++ '\n' :: t from rfl, hrec]

theorem splitlinesC_lineBlocks :
    ∀ (ls : List (List Char)), (∀ l ∈ ls, '\n' ∉ l) →
      splitlinesC (lineBlocks ls) = ls := by
  intro ls
  induction ls with
  | nil => intro _; simp [lineBlocks, splitlinesC]
  | cons l ls ih =>
    intro h
    simp only [lineBlocks]
    rw [splitlinesC_append_newline _ l (h l (List.mem_cons_self _ _))]
    rw [ih (fun m hm => h m (List.mem_cons_of_mem _ hm))]

/-! ### Lemmas about pipe splitting and cell deduplication -/

theorem splitPipe_ne_nil : ∀ (l : List Char), splitPipe l ≠ [] := by
  intro l
  cases l with
  | nil => simp [splitPipe]
  | cons c cs =>
    by_cases hc : c = '|'
    · simp [splitPipe, hc]
    · simp only [splitPipe, hc, if_false]
      cases splitPipe cs <;> simp

theorem mem_splitPipe_no_pipe :
    ∀ (l : List Char) (cell : List Char), cell ∈ splitPipe l → '|' ∉ cell := by
  intro l
  induction l with
  | nil => intro cell h; simp [splitPipe] at h; simp [h]
  | cons c cs ih =>
    intro cell h
    by_cases hc : c = '|'
    · rw [show splitPipe (c :: cs) = [] :: splitPipe cs by simp [splitPipe, hc]] at h
      rcases List.mem_cons.mp h with rfl | h
      · simp
      · exact ih cell h
    · rw [show splitPipe (c :: cs) =
          (match splitPipe cs with
           | [] => [[c]]
           | m :: ms => (c :: m) :: ms) by simp [splitPipe, hc]] at h
      cases hcs : splitPipe cs with
      | nil => exact absurd hcs (splitPipe_ne_nil cs)
      | cons m ms =>
        rw [hcs] at h
        rcases List.mem_cons.mp h with rfl | h
        · intro hmem
          rcases List.mem_cons.mp hmem with he | hmem
          · exact hc he.symm
          · exact ih m (hcs ▸ List.mem_cons_self _ _) hmem
        · exact ih cell (hcs ▸ List.mem_cons_of_mem _ h)

theorem mem_splitPipe_mem_line :
    ∀ (l : List Char) (cell : List Char), cell ∈ splitPipe l →
      ∀ c ∈ cell, c ∈ l := by
  intro l
  induction l with
  | nil => intro cell h; simp [splitPipe] at h; simp [h]
  | cons a cs ih =>
    intro cell h c hc
    by_cases ha : a = '|'
    · rw [show splitPipe (a :: cs) = [] :: splitPipe cs by simp [splitPipe, ha]] at h
      rcases List.mem_cons.mp h with rfl | h
      · simp at hc
      · exact List.mem_cons_of_mem _ (ih cell h c hc)
    · rw [show splitPipe (a :: cs) =
          (match splitPipe cs with
           | [] => [[a]]
           | m :: ms => (a :: m) :: ms) by simp [splitPipe, ha]] at h
      cases hcs : splitPipe cs with
      | nil => exact absurd hcs (splitPipe_ne_nil cs)
      | cons m ms =>
        rw [hcs] at h
        rcases List.mem_cons.mp h with rfl | h
        · rcases List.mem_cons.mp hc with rfl | hc
          · exact List.mem_cons_self _ _
          · exact List.mem_cons_of_mem _ (ih m (hcs ▸ List.mem_cons_self _ _) c hc)
        · exact List.mem_cons_of_mem _ (ih cell (hcs ▸ List.mem_cons_of_mem _ h) c hc)

theorem splitPipe_no_pipe :
    ∀ (l : List Char), '|' ∉ l → splitPipe l = [l] := by
  intro l
  induction l with
  | nil => intro _; simp [splitPipe]
  | cons c cs ih =>
    intro h
    have hc : c ≠ '|' := fun he => h (he ▸ List.mem_cons_self _ _)
    simp only [splitPipe, hc, if_false]
    rw [ih (fun hm => h (List.mem_cons_of_mem _ hm))]

theorem splitPipe_append_pipe (t : List Char) :
    ∀ (x : List Char), '|' ∉ x → splitPipe (x ++ '|' :: t) = x :: splitPipe t := by
  intro x
  induction x with
  | nil => intro _; simp [splitPipe]
  | cons c cs ih =>
    intro h
    have hc : c ≠ '|' := fun he => h (he ▸ List.mem_cons_self _ _)
    have hrec := ih (fun hm => h (List.mem_cons_of_mem _ hm))
    simp only [List.cons_append, splitPipe, hc, if_false]
    rw [show cs.append ('|' :: t) = cs ++ '|' :: t from rfl, hrec]

theorem splitPipe_joinPipe :
    ∀ (cells : List (List Char)), cells ≠ [] → (∀ c ∈ cells, '|' ∉ c) →
      splitPipe (joinPipe cells) = cells := by
  intro cells
  induction cells with
  | nil => intro h; exact absurd rfl h
  | cons x xs ih =>
    intro _ h
    cases xs with
    | nil =>
      simp only [joinPipe, joinWithC]
      exact splitPipe_no_pipe x (h x (List.mem_cons_self _ _))
    | cons y ys =>
      have hx : '|' ∉ x := h x (List.mem_cons_self _ _)
      have : joinPipe (x :: y :: ys) = x ++ '|' :: joinPipe (y :: ys) := by
        simp [joinPipe, joinWithC]
      rw [this, splitPipe_append_pipe _ x hx]
      rw [ih (by simp) (fun c hc => h c (List.mem_cons_of_mem _ hc))]

theorem mem_joinWithC (sep : List Char) :
    ∀ (cells : List (List Char)) (c : Char), c ∈ joinWithC sep cells →
      c ∈ sep ∨ ∃ cell ∈ cells, c ∈ cell := by
  intro cells
  induction cells with
  | nil => intro c h; simp [joinWithC] at h
  | cons x xs ih =>
    intro c h
    cases xs with
    | nil =>
      simp only [joinWithC] at h
      exact Or.inr ⟨x, List.mem_cons_self _ _, h⟩
    | cons y ys =>
      simp only [joinWithC, List.mem_append, List.append_assoc] at h
      rcases h with hx | hs | hrest
      · exact Or.inr ⟨x, List.mem_cons_self _ _, hx⟩
      · exact Or.inl hs
      · rcases ih c hrest with hs | ⟨cell, hcell, hc⟩
        · exact Or.inl hs
        · exact Or.inr ⟨cell, List.mem_cons_of_mem _ hcell, hc⟩

theorem dedupCells_sublist :
    ∀ (cs : List (List Char)) (prev : Option (List Char)),
      (dedupCells cs prev).Sublist cs := by
  intro cs
  induction cs with
  | nil => intro prev; simp [dedupCells]
  | cons c cs ih =>
    intro prev
    by_cases h : some (trimChars c) ≠ prev ∨ trimChars c = []
    · rw [show dedupCells (c :: cs) prev = c :: dedupCells cs (some (trimChars c)) by
        simp [dedupCells, h]]
      exact List.Sublist.cons₂ c (ih _)
    · rw [show dedupCells (c :: cs) prev = dedupCells cs prev by simp [dedupCells, h]]
      exact List.Sublist.cons c (ih _)

theorem dedupCells_idem :
    ∀ (cs : List (List Char)) (prev : Option (List Char)),
      dedupCells (dedupCells cs prev) prev = dedupCells cs prev := by
  intro cs
  induction cs with
  | nil => intro prev; simp [dedupCells]
  | cons c cs ih =>
    intro prev
    by_cases h : some (trimChars c) ≠ prev ∨ trimChars c = []
    · rw [show dedupCells (c :: cs) prev = c :: dedupCells cs (some (trimChars c)) by
        simp [dedupCells, h]]
      rw [show dedupCells (c :: dedupCells cs (some (trimChars c))) prev =
          c :: dedupCells (dedupCells cs (some (trimChars c))) (some (trimChars c)) by
        simp [dedupCells, h]]
      rw [ih (some (trimChars c))]
    · rw [show dedupCells (c :: cs) prev = dedupCells cs prev by simp [dedupCells, h]]
      exact ih prev

theorem dedupCells_cons_none (c : List Char) (cs : List (List Char)) :
    dedupCells (c :: cs) none = c :: dedupCells cs (some (trimChars c)) := by
  simp [dedupCells]

theorem dedupCells_cons_some_nil (c : List Char) (cs : List (List Char)) :
    dedupCells (c :: cs) (some []) = c :: dedupCells cs (some (trimChars c)) := by
  by_cases h : trimChars c = []
  · simp [dedupCells, h]
  · have : some (trimChars c) ≠ some [] := by simpa using h
    simp [dedupCells, this]

/-! ### The table transformation is idempotent and newline-free -/

theorem processLine_pipe (t : List Char) :
    processLine ('|' :: t) = joinPipe ([] :: dedupCells (splitPipe t) (some [])) := by
  have h1 : splitPipe ('|' :: t) = [] :: splitPipe t := by simp [splitPipe]
  have h2 : trimChars ([] : List Char) = [] := rfl
  simp only [processLine, List.head?, if_pos rfl]
  rw [h1, dedupCells_cons_none, h2]
  simp

theorem processLine_not_pipe (l : List Char) (h : l.head? ≠ some '|') :
    processLine l = l := by
  simp [processLine, h]

theorem processLine_pipe_shape (t : List Char) :
    ∃ rest, processLine ('|' :: t) = '|' :: rest := by
  rw [processLine_pipe]
  cases hsp : splitPipe t with
  | nil => exact absurd hsp (splitPipe_ne_nil t)
  | cons c cs =>
    rw [dedupCells_cons_some_nil]
    exact ⟨joinWithC ['|'] (c :: dedupCells cs (some (trimChars c))), by
      simp [joinPipe, joinWithC]⟩

theorem processLine_idem (l : List Char) :
    processLine (processLine l) = processLine l := by
  cases l with
  | nil => simp [processLine]
  | cons a t =>
    by_cases ha : a = '|'
    · subst ha
      rw [processLine_pipe]
      have hsub : (dedupCells (splitPipe t) (some [])).Sublist (splitPipe t) :=
        dedupCells_sublist _ _
      have hfree : ∀ c ∈ [] :: dedupCells (splitPipe t) (some []), '|' ∉ c := by
        intro c hc
        rcases List.mem_cons.mp hc with rfl | hc
        · simp
        · exact mem_splitPipe_no_pipe t c (hsub.mem hc)
      obtain ⟨rest, hrest⟩ := processLine_pipe_shape t
      rw [processLine_pipe] at hrest
      rw [hrest]
      have hhead : ('|' :: rest).head? = some '|' := rfl
      simp only [processLine, hhead, if_pos rfl]
      rw [← hrest]
      rw [splitPipe_joinPipe _ (by simp) hfree]
      rw [dedupCells_cons_none]
      rw [show trimChars ([] : List Char) = [] from rfl]
      rw [dedupCells_idem]
      rw [hrest]
      simp
    · have h : (a :: t).head? ≠ some '|' := by simp [ha]
      rw [processLine_not_pipe _ h, processLine_not_pipe _ h]

theorem processLine_no_newline (l : List Char) (h : '\n' ∉ l) :
    '\n' ∉ processLine l := by
  by_cases hp : l.head? = some '|'
  · cases l with
    | nil => simp at hp
    | cons a t =>
      have ha : a = '|' := by simpa using hp
      subst ha
      rw [processLine_pipe]
      intro hmem
      rcases mem_joinWithC ['|'] _ '\n' hmem with hs | ⟨cell, hcell, hc⟩
      · simp at hs
      · rcases List.mem_cons.mp hcell with rfl | hcell
        · simp at hc
        · have : cell ∈ splitPipe t := (dedupCells_sublist _ _).mem hcell
          have : '\n' ∈ '|' :: t :=
            List.mem_cons_of_mem _ (mem_splitPipe_mem_line t cell this '\n' hc)
          exact h this
  · rw [processLine_not_pipe _ hp]; exact h

theorem remove_duplicate_lines_idem (x : List Char) :
    remove_duplicate_lines (remove_duplicate_lines x) = remove_duplicate_lines x := by
  have hfix : ∀ m ∈ dedupBy processLine (splitlinesC x) [], processLine m = m := by
    intro m hm
    obtain ⟨y, _, he⟩ := mem_dedupBy_image processLine (splitlinesC x) [] m hm
    rw [he, processLine_idem]
  have hnody : (dedupBy processLine (splitlinesC x) []).Nodup := dedupBy_nodup _ _ _
  have hnl : ∀ m ∈ dedupBy processLine (splitlinesC x) [], '\n' ∉ m := by
    intro m hm
    obtain ⟨y, hy, he⟩ := mem_dedupBy_image processLine (splitlinesC x) [] m hm
    rw [he]
    exact processLine_no_newline y (splitlinesC_noNewline x y hy)
  cases hout : dedupBy processLine (splitlinesC x) [] with
  | nil =>
    rw [show remove_duplicate_lines x = ['\n'] by
      simp [remove_duplicate_lines, hout, renderLines, joinWithC]]
    decide
  | cons m ms =>
    have hne : dedupBy processLine (splitlinesC x) [] ≠ [] := by rw [hout]; simp
    have h1 : splitlinesC (renderLines (dedupBy processLine (splitlinesC x) [])) =
        dedupBy processLine (splitlinesC x) [] := by
      rw [renderLines_eq_lineBlocks _ hne]
      exact splitlinesC_lineBlocks _ hnl
    show renderLines (dedupBy processLine
        (splitlinesC (renderLines (dedupBy processLine (splitlinesC x) []))) []) =
      renderLines (dedupBy processLine (splitlinesC x) [])
    rw [h1]
    rw [dedupBy_fixed processLine _ [] hfix hnody (by simp)]


theorem rstripNewlines_no_newline (l : List Char) (h : '\n' ∉ l) :
    rstripNewlines l = l := by
  unfold rstripNewlines
  rw [List.dropWhile_eq_self_iff.mpr, List.reverse_reverse]
  cases hr : l.reverse with
  | nil => simp
  | cons c t =>
    have : c ∈ l := by
      rw [← List.mem_reverse, hr]; exact List.mem_cons_self _ _
    have : c ≠ '\n' := fun he => h (he ▸ this)
    simp [hr, this]

/-! ## Claim theorems for the normalizer and exporter -/

/-- C7: both normalization transforms are idempotent: applying the Arabic
script filter twice equals applying it once, and applying line deduplication
twice equals applying it once, for every input content. -/
theorem C7_normalization_idempotent :
    (∀ x : List Char, remove_arabic_chars (remove_arabic_chars x) = remove_arabic_chars x) ∧
    (∀ x : List Char, remove_duplicate_lines (remove_duplicate_lines x) = remove_duplicate_lines x) := by
  constructor
  · intro x
    unfold remove_arabic_chars
    rw [List.filter_filter]
    apply List.filter_congr
    intro a _
    cases isArabicChar a <;> simp
  · exact remove_duplicate_lines_idem

/-- C3: line deduplication retains each (table-transformed) line exactly at
its first occurrence, by exact string equality, in first-occurrence order; on
inputs with no table rows the retained lines are exactly the input lines'
first occurrences; the input "A\nB\nA\nC\n" deduplicates to "A\nB\nC\n". -/
theorem C3_dedup_first_occurrence_order :
    (∀ ls : List (List Char),
       dedupBy processLine ls [] = firstOccDedup (ls.map processLine)) ∧
    (∀ ls : List (List Char), (∀ l ∈ ls, l.head? ≠ some '|') →
       dedupBy processLine ls [] = firstOccDedup ls) ∧
    remove_duplicate_lines ("A\nB\nA\nC\n".data) = "A\nB\nC\n".data := by
  refine ⟨fun ls => dedupBy_nil processLine ls, ?_, by decide⟩
  intro ls h
  have hmap : ∀ (ms : List (List Char)), (∀ l ∈ ms, l.head? ≠ some '|') →
      ms.map processLine = ms := by
    intro ms
    induction ms with
    | nil => intro _; rfl
    | cons a t ih =>
      intro hm
      rw [List.map_cons, processLine_not_pipe a (hm a (List.mem_cons_self _ _)),
        ih (fun l hl => hm l (List.mem_cons_of_mem _ hl))]
  rw [dedupBy_nil processLine ls, hmap ls h]

/-- Witness for C3: a concrete pipe-free input, with hypotheses discharged. -/
theorem C3_dedup_first_occurrence_order_witness :
    (∀ l ∈ [['A'], ['B'], ['A'], ['C']], List.head? l ≠ some '|') ∧
    dedupBy processLine [['A'], ['B'], ['A'], ['C']] [] =
      firstOccDedup [['A'], ['B'], ['A'], ['C']] :=
  ⟨by decide, C3_dedup_first_occurrence_order.2.1 [['A'], ['B'], ['A'], ['C']] (by decide)⟩

/-- C4: within a pipe-started table row, a cell whose stripped content repeats
the stripped content of the immediately preceding kept non-empty cell is
collapsed to a single occurrence; the collapse happens before the whole-line
dedup membership test; two adjacent empty cells are both kept (a cell is
"empty" in the code's sense when its stripped content is empty); and a cell is
never merged with a non-adjacent repeat three cells away. -/
theorem C4_table_aware_cell_dedup :
    (∀ (c : List Char) (cs : List (List Char)), trimChars c ≠ [] →
       dedupCells (c :: c :: cs) none = c :: dedupCells cs (some (trimChars c))) ∧
    (∀ (l1 l2 : List Char), processLine l1 = processLine l2 →
       dedupBy processLine [l1, l2] [] = [processLine l1]) ∧
    (∀ (cs : List (List Char)) (prev : Option (List Char)),
       dedupCells ([] :: [] :: cs) prev = [] :: [] :: dedupCells cs (some [])) ∧
    (∀ (a b c : List Char) (cs : List (List Char)),
       trimChars b ≠ trimChars a → trimChars c ≠ trimChars b →
       trimChars a ≠ trimChars c →
       dedupCells (a :: b :: c :: a :: cs) none =
         a :: b :: c :: a :: dedupCells cs (some (trimChars a))) := by
  refine ⟨?_, ?_, ?_, ?_⟩
  · intro c cs hne
    rw [dedupCells_cons_none]
    congr 1
    have hcond : ¬(some (trimChars c) ≠ some (trimChars c) ∨ trimChars c = []) := by
      simp [hne]
    simp [dedupCells, hcond, hne]
  · intro l1 l2 he
    have h1 : processLine l1 ∉ ([] : List (List Char)) := by simp
    simp [dedupBy, he]
  · intro cs prev
    have h0 : trimChars ([] : List Char) = [] := rfl
    rw [show dedupCells ([] :: [] :: cs) prev = [] :: dedupCells ([] :: cs) (some []) by
      simp [dedupCells, h0]]
    rw [show dedupCells ([] :: cs) (some []) = [] :: dedupCells cs (some []) by
      simp [dedupCells, h0]]
  · intro a b c cs hba hcb hac
    rw [dedupCells_cons_none]
    rw [show dedupCells (b :: c :: a :: cs) (some (trimChars a)) =
        b :: dedupCells (c :: a :: cs) (some (trimChars b)) by
      simp [dedupCells, Or.inl hba]]
    rw [show dedupCells (c :: a :: cs) (some (trimChars b)) =
        c :: dedupCells (a :: cs) (some (trimChars c)) by
      simp [dedupCells, Or.inl hcb]]
    rw [show dedupCells (a :: cs) (some (trimChars c)) =
        a :: dedupCells cs (some (trimChars a)) by
      simp [dedupCells, Or.inl hac]]

/-- Witness for C4 at concrete cells and rows. -/
theorem C4_table_aware_cell_dedup_witness :
    dedupCells [['x'], ['x']] none = [['x']] ∧
    dedupBy processLine ["|a|a|".data, "|a|".data] [] = ["|a|".data] ∧
    dedupCells [[], []] none = [[], []] ∧
    dedupCells [['x'], ['y'], ['z'], ['x']] none = [['x'], ['y'], ['z'], ['x']] := by
  refine ⟨?_, ?_, ?_, ?_⟩
  · have h := C4_table_aware_cell_dedup.1 ['x'] [] (by decide)
    simpa using h
  · have he : processLine ("|a|a|".data) = processLine ("|a|".data) := by decide
    have h := C4_table_aware_cell_dedup.2.1 ("|a|a|".data) ("|a|".data) he
    rw [h]
    decide
  · have h := C4_table_aware_cell_dedup.2.2.1 [] none
    simpa using h
  · have h := C4_table_aware_cell_dedup.2.2.2 ['x'] ['y'] ['z'] []
      (by decide) (by decide) (by decide)
    simpa using h

/-- C8 counterexample: the export does not filter out empty or whitespace-only
lines.  On the normalized document "A\n\nB\n" (three pairwise distinct lines,
one of them empty), the exported JSON array retains the empty line as the
element "". -/
theorem C8_export_counterexample :
    ([] : List Char) ∈ dedupBy rstripNewlines (splitlinesC ("A\n\nB\n".data)) [] ∧
    markdown_to_json ("A\n\nB\n".data) =
      "[\n    \"A\",\n    \"\",\n    \"B\"\n]".data := by
  constructor
  · decide
  · decide

/-- C8 as amended: the JSON export is an array of strings with one element per
retained line, where "retained" means the first occurrence of each distinct
line in the document's order (the export deduplicates rather than filtering
empty or whitespace-only lines); output is pretty-printed with 4-space
indentation, and every printable non-quote non-backslash character — in
particular every non-ASCII character — is emitted literally. -/
theorem C8_export_shape_amended :
    (∀ content : List Char,
       markdown_to_json content = jsonDumpsIndent4 (firstOccDedup (splitlinesC content))) ∧
    (∀ c : Char, 0x20 ≤ c.toNat → c ≠ '"' → c ≠ '\\' → jsonEscapeChar c = [c]) ∧
    markdown_to_json ("Hello\nWorld\n".data) =
      "[\n    \"Hello\",\n    \"World\"\n]".data := by
  refine ⟨?_, ?_, by decide⟩
  · intro content
    have hmap : ∀ ms : List (List Char), (∀ l ∈ ms, '\n' ∉ l) →
        ms.map rstripNewlines = ms := by
      intro ms
      induction ms with
      | nil => intro _; rfl
      | cons a t ih =>
        intro hm
        rw [List.map_cons,
          rstripNewlines_no_newline a (hm a (List.mem_cons_self _ _)),
          ih (fun l hl => hm l (List.mem_cons_of_mem _ hl))]
    rw [show markdown_to_json content =
        jsonDumpsIndent4 (dedupBy rstripNewlines (splitlinesC content) []) from rfl]
    rw [dedupBy_nil, hmap _ (splitlinesC_noNewline content)]
  · intro c h1 h2 h3
    have hn : c ≠ '\n' := by rintro rfl; exact absurd h1 (by decide)
    have hr : c ≠ '\r' := by rintro rfl; exact absurd h1 (by decide)
    have ht : c ≠ '\t' := by rintro rfl; exact absurd h1 (by decide)
    have hb : c ≠ Char.ofNat 8 := by rintro rfl; exact absurd h1 (by decide)
    have hf : c ≠ Char.ofNat 12 := by rintro rfl; exact absurd h1 (by decide)
    have hc : ¬(c.toNat < 0x20) := by omega
    simp [jsonEscapeChar, h2, h3, hn, hr, ht, hb, hf, hc]

/-- Witness for C8's amended theorem: a concrete non-ASCII character passes
through the JSON escaper unchanged. -/
theorem C8_export_shape_amended_witness :
    (0x20 ≤ 'é'.toNat ∧ 'é' ≠ '"' ∧ 'é' ≠ '\\') ∧ jsonEscapeChar 'é' = ['é'] :=
  ⟨by decide, C8_export_shape_amended.2.1 'é' (by decide) (by decide) (by decide)⟩

/-! ## `src/app/converter.py`

`convert_to_markdown` drives the fallback cascade: the Docling structured
converter first, then, only when the caught error message contains
"Permission denied" or "FAILURE", a PyPDF2 text-layer extraction.  The
filesystem and the two libraries are abstracted into an environment record
describing the outcome of each external call; the function below transcribes
the control flow of `convert_to_markdown` over that environment.  The
`attempted` field records which engines were invoked, and `wroteOutput`
whether the optional output file was written. -/

/-- Python `str.strip()` at the `String` level. -/
def pyStrip (s : String) : String :=
  ⟨trimChars s.data⟩

/-- Does `needle` occur at the head of `hay`? -/
def leadingMatch : List Char → List Char → Bool
  | [], _ => true
  | _ :: _, [] => false
  | a :: as, b :: bs => a = b && leadingMatch as bs

/-- Python `needle in hay` on strings. -/
def containsSeq (hay needle : List Char) : Bool :=
  match hay with
  | [] => leadingMatch needle []
  | _ :: t => leadingMatch needle hay || containsSeq t needle

/-- Python `needle in hay` lifted to `String`. -/
def pyContains (hay needle : String) : Bool :=
  containsSeq hay.data needle.data

/-- Python `sep.join(xs)`. -/
def joinWith (sep : String) : List String → String
  | [] => ""
  | [s] => s
  | s :: t :: ts => s ++ sep ++ joinWith sep (t :: ts)

/-- Outcome of the Docling call chain (`converter.convert`,
`result.document`, `export_to_markdown`): a markdown string, a missing
document (`result is None or result.document is None`), or a raised
exception carrying its message. -/
inductive DoclingOutcome
  | ok (md : String)
  | noDocument
  | raised (msg : String)
deriving DecidableEq

/-- Outcome of the PyPDF2 call: the per-page `extract_text()` results
(`""` standing for pages yielding no text, which Python treats as falsy), or
a raised exception. -/
inductive PyPdfOutcome
  | ok (pages : List String)
  | raised (msg : String)
deriving DecidableEq

/-- The two conversion engines present in the source. -/
inductive Engine
  | structured
  | textFallback
deriving DecidableEq

/-- Abstraction of the filesystem and libraries as observed by one
`convert_to_markdown` call.  `sourceEmpty` records whether the input file has
empty content; the source never reads it (it checks existence only), which is
exactly what the validation claims are tested against. -/
structure ConvEnv where
  sourceExists : Bool
  sourceEmpty : Bool
  sourceName : String
  docling : DoclingOutcome
  pypdf : PyPdfOutcome
deriving DecidableEq

deriving instance DecidableEq for Except

/-- Result of one `convert_to_markdown` call: the returned markdown or the
raised error message, whether the optional output file was written, and which
engines were invoked. -/
structure ConvOutcome where
  result : Except String String
  wroteOutput : Bool
  attempted : List Engine
deriving DecidableEq

/-- Message of the `RuntimeError` raised when Docling returns no document. -/
def emptyOutputMsg1 : String := "No document returned from conversion"

/-- Message of the `RuntimeError` raised when the exported markdown is empty
or whitespace-only. -/
def emptyOutputMsg2 : String := "No content extracted"

/-- The final `RuntimeError` message raised after the PyPDF2 fallback fails. -/
def finalFallbackMsg (name : String) : String :=
  "Cannot process " ++ name ++
    ": OCR model download failed due to permissions. This is a deployment environment limitation. Please try with a text-based PDF or contact support."

/-- The error classification of `converter.py` line 76:
`"Permission denied" in error_str or "FAILURE" in error_str`. -/
def permissionLike (msg : String) : Bool :=
  pyContains msg "Permission denied" || pyContains msg "FAILURE"

/-- The page-collection loop of the PyPDF2 fallback: keep exactly the pages
whose extracted text is non-empty (Python appends `text` only when truthy). -/
def keepNonEmpty (pages : List String) : List String :=
  pages.filter (fun t => t ≠ "")

/-- The `except Exception as e` handler of `convert_to_markdown`: when the
message is permission-like, attempt PyPDF2 text extraction (keeping the pages
whose text is non-empty, joining them with a blank line); otherwise re-raise
the original error.  The fallback's failure raises the fixed final message. -/
def fallbackAfterError (env : ConvEnv) (hasOut : Bool) (msg : String) : ConvOutcome :=
  if permissionLike msg then
    match env.pypdf with
    | PyPdfOutcome.ok pages =>
      match keepNonEmpty pages with
      | [] => ⟨Except.error (finalFallbackMsg env.sourceName), false,
               [Engine.structured, Engine.textFallback]⟩
      | t :: ts => ⟨Except.ok (joinWith "\n\n" (t :: ts)), hasOut,
                    [Engine.structured, Engine.textFallback]⟩
    | PyPdfOutcome.raised _ =>
      ⟨Except.error (finalFallbackMsg env.sourceName), false,
       [Engine.structured, Engine.textFallback]⟩
  else
    ⟨Except.error msg, false, [Engine.structured]⟩

/-- `convert_to_markdown(source_path, out_md_path)`: fail fast when the input
does not exist; otherwise run Docling, raising on a missing document or
empty/whitespace markdown, and route every raised message through the
permission-classified fallback; the output file is written only directly
before a successful return. -/
def convert_to_markdown (env : ConvEnv) (hasOut : Bool) : ConvOutcome :=
  if env.sourceExists = false then
    ⟨Except.error ("Input not found: " ++ env.sourceName), false, []⟩
  else
    match env.docling with
    | DoclingOutcome.ok md =>
      if pyStrip md = "" then fallbackAfterError env hasOut emptyOutputMsg2
      else ⟨Except.ok md, hasOut, [Engine.structured]⟩
    | DoclingOutcome.noDocument => fallbackAfterError env hasOut emptyOutputMsg1
    | DoclingOutcome.raised msg => fallbackAfterError env hasOut msg

/-! ### Helper lemmas about the fallback handler -/

theorem joinWith_blankline_ne_empty :
    ∀ (ts : List String), (∀ t ∈ ts, t ≠ "") → ts ≠ [] →
      joinWith "\n\n" ts ≠ "" := by
  intro ts h hne
  cases ts with
  | nil => exact absurd rfl hne
  | cons t rest =>
    cases rest with
    | nil => exact h t (List.mem_cons_self _ _)
    | cons u us =>
      intro he
      have hlen := congrArg String.length he
      rw [show joinWith "\n\n" (t :: u :: us) =
          t ++ "\n\n" ++ joinWith "\n\n" (u :: us) from rfl] at hlen
      rw [String.length_append, String.length_append] at hlen
      have h2 : ("\n\n" : String).length = 2 := by decide
      rw [h2] at hlen
      simp at hlen

theorem fallbackAfterError_success (env : ConvEnv) (hasOut : Bool) (msg md : String) :
    (fallbackAfterError env hasOut msg).result = Except.ok md →
    md ≠ "" ∧
    (fallbackAfterError env hasOut msg).attempted =
      [Engine.structured, Engine.textFallback] := by
  unfold fallbackAfterError
  by_cases hperm : permissionLike msg = true
  · simp only [hperm, if_true]
    cases env.pypdf with
    | ok pages =>
      dsimp only
      cases hf : keepNonEmpty pages with
      | nil => intro hok; simp at hok
      | cons t ts =>
        intro hok
        dsimp only at hok
        simp only [Except.ok.injEq] at hok
        refine ⟨?_, rfl⟩
        rw [← hok]
        apply joinWith_blankline_ne_empty
        · intro x hx
          have hxf : x ∈ keepNonEmpty pages := hf ▸ hx
          have := List.of_mem_filter hxf
          simpa using this
        · simp
    | raised m => intro hok; simp at hok
  · simp only [hperm, if_false]
    intro hok; simp at hok

theorem fallbackAfterError_write (env : ConvEnv) (hasOut : Bool) (msg : String) :
    ((fallbackAfterError env hasOut msg).wroteOutput = true →
       hasOut = true ∧ (fallbackAfterError env hasOut msg).result.isOk = true) ∧
    (∀ m, (fallbackAfterError env hasOut msg).result = Except.error m →
       (fallbackAfterError env hasOut msg).wroteOutput = false) := by
  unfold fallbackAfterError
  by_cases hperm : permissionLike msg = true
  · simp only [hperm, if_true]
    cases env.pypdf with
    | ok pages =>
      dsimp only
      cases hf : keepNonEmpty pages with
      | nil => exact ⟨fun h => by simp at h, fun m _ => rfl⟩
      | cons t ts => exact ⟨fun h => ⟨h, rfl⟩, fun m hm => by simp at hm⟩
    | raised m => exact ⟨fun h => by simp at h, fun m _ => rfl⟩
  · simp only [hperm, if_false]
    exact ⟨fun h => by simp at h, fun m _ => rfl⟩

/-! ### Claim theorems for the conversion orchestrator -/

/-- C1 counterexample environment: the input exists, the structured engine
fails with EmptyOutput (Docling returns no document), and the text-extraction
fallback would succeed. -/
def envEmptyOutput : ConvEnv :=
  ⟨true, false, "doc.pdf", DoclingOutcome.noDocument, PyPdfOutcome.ok ["recovered text"]⟩

/-- C1 counterexample: when the structured engine fails with EmptyOutput, the
error is surfaced to the caller directly and the text-extraction fallback is
never attempted, even though it would succeed — refuting the claim that the
orchestrator proceeds to the next engine on a content-limitation error. -/
theorem C1_empty_output_surfaces_counterexample :
    (convert_to_markdown envEmptyOutput false).result = Except.error emptyOutputMsg1 ∧
    (convert_to_markdown envEmptyOutput false).attempted = [Engine.structured] := by
  constructor
  · decide
  · decide

/-- C1 as amended: the code proceeds to the text-extraction fallback only when
the structured engine's error message contains "Permission denied" or
"FAILURE"; an EmptyOutput failure (no document, or empty/whitespace-only
markdown) is re-raised to the caller with the fallback engine untried. -/
theorem C1_amended_fallback_gating :
    ∀ (env : ConvEnv) (hasOut : Bool),
      env.sourceExists = true →
      (env.docling = DoclingOutcome.noDocument →
         convert_to_markdown env hasOut =
           ⟨Except.error emptyOutputMsg1, false, [Engine.structured]⟩) ∧
      (∀ md, env.docling = DoclingOutcome.ok md → pyStrip md = "" →
         convert_to_markdown env hasOut =
           ⟨Except.error emptyOutputMsg2, false, [Engine.structured]⟩) ∧
      (∀ msg, env.docling = DoclingOutcome.raised msg → permissionLike msg = true →
         Engine.textFallback ∈ (convert_to_markdown env hasOut).attempted) := by
  intro env hasOut hex
  have hperm1 : permissionLike emptyOutputMsg1 = false := by decide
  have hperm2 : permissionLike emptyOutputMsg2 = false := by decide
  refine ⟨?_, ?_, ?_⟩
  · intro hd
    simp [convert_to_markdown, hex, hd, fallbackAfterError, hperm1]
  · intro md hd hstrip
    simp [convert_to_markdown, hex, hd, hstrip, fallbackAfterError, hperm2]
  · intro msg hd hperm
    have h1 : convert_to_markdown env hasOut = fallbackAfterError env hasOut msg := by
      simp [convert_to_markdown, hex, hd]
    rw [h1]
    unfold fallbackAfterError
    simp only [hperm, if_true]
    cases env.pypdf with
    | ok pages =>
      dsimp only
      cases keepNonEmpty pages with
      | nil => simp
      | cons t ts => simp
    | raised m => simp

/-- Witness for C1's amended theorem at concrete environments. -/
theorem C1_amended_fallback_gating_witness :
    convert_to_markdown envEmptyOutput false =
      ⟨Except.error emptyOutputMsg1, false, [Engine.structured]⟩ ∧
    Engine.textFallback ∈
      (convert_to_markdown
        ⟨true, false, "doc.pdf", DoclingOutcome.raised "FAILURE", PyPdfOutcome.ok ["x"]⟩
        false).attempted := by
  constructor
  · exact (C1_amended_fallback_gating envEmptyOutput false rfl).1 rfl
  · exact (C1_amended_fallback_gating _ false rfl).2.2 "FAILURE" rfl (by decide)

/-- C2 counterexample environments: one where both engines fail after a
permission-like primary error, and one where the primary engine fails with a
non-permission-like error. -/
def envAllFail : ConvEnv :=
  ⟨true, false, "doc.pdf", DoclingOutcome.raised "Permission denied: model cache",
   PyPdfOutcome.raised "bad pdf"⟩

def envOtherError : ConvEnv :=
  ⟨true, false, "doc.pdf", DoclingOutcome.raised "corrupt input stream",
   PyPdfOutcome.ok ["text layer"]⟩

set_option maxRecDepth 8192 in
/-- C2 counterexample: when every engine fails, the caller receives a plain
`RuntimeError` message carrying no attempt records, and only 2 engines exist
and were attempted (not 3); moreover a non-permission-like primary-engine
error crosses the component boundary unwrapped. -/
theorem C2_attempt_records_counterexample :
    (convert_to_markdown envAllFail false).result =
      Except.error (finalFallbackMsg "doc.pdf") ∧
    (convert_to_markdown envAllFail false).attempted.length = 2 ∧
    ¬(convert_to_markdown envAllFail false).attempted.length = 3 ∧
    (convert_to_markdown envOtherError false).result =
      Except.error "corrupt input stream" := by
  refine ⟨by decide, by decide, by decide, by decide⟩

/-- C2 as amended: when the primary engine fails with a permission-like error
and the conversion as a whole fails, the caller receives the single fixed
terminal error message, and exactly the two catalog engines were attempted in
cascade order; primary-engine errors that are not permission-like cross the
boundary directly. -/
theorem C2_amended_terminal_failure :
    ∀ (env : ConvEnv) (hasOut : Bool) (msg : String),
      env.sourceExists = true →
      env.docling = DoclingOutcome.raised msg →
      ((permissionLike msg = true →
          (convert_to_markdown env hasOut).result.isOk = false →
          convert_to_markdown env hasOut =
            ⟨Except.error (finalFallbackMsg env.sourceName), false,
             [Engine.structured, Engine.textFallback]⟩) ∧
       (permissionLike msg = false →
          convert_to_markdown env hasOut =
            ⟨Except.error msg, false, [Engine.structured]⟩)) := by
  intro env hasOut msg hex hd
  have h1 : convert_to_markdown env hasOut = fallbackAfterError env hasOut msg := by
    simp [convert_to_markdown, hex, hd]
  rw [h1]
  constructor
  · intro hperm hfail
    unfold fallbackAfterError at hfail ⊢
    simp only [hperm, if_true] at hfail ⊢
    cases hp : env.pypdf with
    | ok pages =>
      rw [hp] at hfail
      dsimp only at hfail ⊢
      cases hf : keepNonEmpty pages with
      | nil => rfl
      | cons t ts => rw [hf] at hfail; simp [Except.isOk, Except.toBool] at hfail
    | raised m => rfl
  · intro hperm
    unfold fallbackAfterError
    simp only [hperm]
    simp

/-- Witness for C2's amended theorem at the concrete all-fail environment. -/
theorem C2_amended_terminal_failure_witness :
    convert_to_markdown envAllFail false =
      ⟨Except.error (finalFallbackMsg "doc.pdf"), false,
       [Engine.structured, Engine.textFallback]⟩ ∧
    convert_to_markdown envOtherError false =
      ⟨Except.error "corrupt input stream", false, [Engine.structured]⟩ := by
  constructor
  · exact (C2_amended_terminal_failure envAllFail false
      "Permission denied: model cache" rfl rfl).1 (by decide) (by decide)
  · exact (C2_amended_terminal_failure envOtherError false
      "corrupt input stream" rfl rfl).2 (by decide)

/-- C9 counterexample environment: the structured engine raises "FAILURE" and
the single PyPDF2 page extracts a whitespace-only string, which Python treats
as truthy. -/
def envBlankFallback : ConvEnv :=
  ⟨true, false, "doc.pdf", DoclingOutcome.raised "FAILURE", PyPdfOutcome.ok [" "]⟩

/-- C9 counterexample: conversion can succeed through the text-extraction
fallback with markdown that is whitespace-only, i.e. empty after trimming —
refuting the invariant for fallback successes. -/
theorem C9_blank_success_counterexample :
    (convert_to_markdown envBlankFallback false).result = Except.ok " " ∧
    pyStrip " " = "" := by
  constructor
  · decide
  · decide

/-- C9 as amended: every successful conversion returns non-empty markdown;
successes produced by the structured engine are furthermore non-empty after
trimming whitespace, while fallback successes may be whitespace-only. -/
theorem C9_amended_success_nonempty :
    ∀ (env : ConvEnv) (hasOut : Bool) (md : String),
      (convert_to_markdown env hasOut).result = Except.ok md →
      md ≠ "" ∧
      ((convert_to_markdown env hasOut).attempted = [Engine.structured] →
        pyStrip md ≠ "") := by
  intro env hasOut md hok
  by_cases hex : env.sourceExists = true
  case neg =>
    have hex' : env.sourceExists = false := by
      cases h : env.sourceExists
      · rfl
      · exact absurd h hex
    rw [show convert_to_markdown env hasOut =
        ⟨Except.error ("Input not found: " ++ env.sourceName), false, []⟩ by
      simp [convert_to_markdown, hex']] at hok ⊢
    simp at hok
  case pos =>
    cases hd : env.docling with
    | ok md' =>
      by_cases hstrip : pyStrip md' = ""
      · have h1 : convert_to_markdown env hasOut =
            fallbackAfterError env hasOut emptyOutputMsg2 := by
          simp [convert_to_markdown, hex, hd, hstrip]
        rw [h1] at hok ⊢
        obtain ⟨hne, hatt⟩ := fallbackAfterError_success env hasOut emptyOutputMsg2 md hok
        refine ⟨hne, ?_⟩
        intro hcontra
        rw [hatt] at hcontra
        simp at hcontra
      · have h1 : convert_to_markdown env hasOut =
            ⟨Except.ok md', hasOut, [Engine.structured]⟩ := by
          simp [convert_to_markdown, hex, hd, hstrip]
        rw [h1] at hok ⊢
        simp only [Except.ok.injEq] at hok
        subst hok
        refine ⟨?_, fun _ => hstrip⟩
        intro he
        exact hstrip (by rw [he]; rfl)
    | noDocument =>
      have h1 : convert_to_markdown env hasOut =
          fallbackAfterError env hasOut emptyOutputMsg1 := by
        simp [convert_to_markdown, hex, hd]
      rw [h1] at hok ⊢
      obtain ⟨hne, hatt⟩ := fallbackAfterError_success env hasOut emptyOutputMsg1 md hok
      refine ⟨hne, ?_⟩
      intro hcontra
      rw [hatt] at hcontra
      simp at hcontra
    | raised msg =>
      have h1 : convert_to_markdown env hasOut = fallbackAfterError env hasOut msg := by
        simp [convert_to_markdown, hex, hd]
      rw [h1] at hok ⊢
      obtain ⟨hne, hatt⟩ := fallbackAfterError_success env hasOut msg md hok
      refine ⟨hne, ?_⟩
      intro hcontra
      rw [hatt] at hcontra
      simp at hcontra

/-- Witness for C9's amended theorem at a concrete successful environment. -/
theorem C9_amended_success_nonempty_witness :
    ("hello" : String) ≠ "" ∧
    ((convert_to_markdown
        ⟨true, false, "d.pdf", DoclingOutcome.ok "hello", PyPdfOutcome.raised "e"⟩
        true).attempted = [Engine.structured] → pyStrip "hello" ≠ "") :=
  C9_amended_success_nonempty
    ⟨true, false, "d.pdf", DoclingOutcome.ok "hello", PyPdfOutcome.raised "e"⟩
    true "hello" (by decide)

/-- C10 counterexample environment: the input file exists but is empty; the
structured engine nevertheless runs and succeeds. -/
def envEmptyInput : ConvEnv :=
  ⟨true, true, "empty.pdf", DoclingOutcome.ok "hello", PyPdfOutcome.raised "x"⟩

/-- C10 counterexample: the converter never validates that its input is
non-empty — on an empty input file an engine is attempted (and here succeeds),
refuting "validates that its input exists and is non-empty before attempting
conversion". -/
theorem C10_missing_empty_validation_counterexample :
    envEmptyInput.sourceEmpty = true ∧
    (convert_to_markdown envEmptyInput true).attempted ≠ [] ∧
    (convert_to_markdown envEmptyInput true).result = Except.ok "hello" := by
  refine ⟨rfl, by decide, by decide⟩

/-- C10 as amended: the converter validates that the input exists (failing
fast with "Input not found" and attempting no engine) but performs no
emptiness check; exactly one of a markdown string or an error is returned
(enforced by the `Except` result); and the optional output file is written
only on the successful paths — every failing path leaves it unwritten. -/
theorem C10_amended_validation_and_write :
    ∀ (env : ConvEnv) (hasOut : Bool),
      (env.sourceExists = false →
         convert_to_markdown env hasOut =
           ⟨Except.error ("Input not found: " ++ env.sourceName), false, []⟩) ∧
      (∀ msg, (convert_to_markdown env hasOut).result = Except.error msg →
         (convert_to_markdown env hasOut).wroteOutput = false) ∧
      ((convert_to_markdown env hasOut).wroteOutput = true →
         hasOut = true ∧ (convert_to_markdown env hasOut).result.isOk = true) := by
  intro env hasOut
  by_cases hex : env.sourceExists = true
  case neg =>
    have hex' : env.sourceExists = false := by
      cases h : env.sourceExists
      · rfl
      · exact absurd h hex
    have h1 : convert_to_markdown env hasOut =
        ⟨Except.error ("Input not found: " ++ env.sourceName), false, []⟩ := by
      simp [convert_to_markdown, hex']
    refine ⟨fun _ => h1, ?_, ?_⟩
    · intro msg _
      rw [h1]
    · intro hw
      rw [h1] at hw
      simp at hw
  case pos =>
    refine ⟨fun hc => absurd hc (by simp [hex]), ?_, ?_⟩
    all_goals
      cases hd : env.docling with
      | ok md' =>
        by_cases hstrip : pyStrip md' = ""
        · have h1 : convert_to_markdown env hasOut =
              fallbackAfterError env hasOut emptyOutputMsg2 := by
            simp [convert_to_markdown, hex, hd, hstrip]
          rw [h1]
          first
          | exact (fallbackAfterError_write env hasOut emptyOutputMsg2).2
          | exact (fallbackAfterError_write env hasOut emptyOutputMsg2).1
        · have h1 : convert_to_markdown env hasOut =
              ⟨Except.ok md', hasOut, [Engine.structured]⟩ := by
            simp [convert_to_markdown, hex, hd, hstrip]
          rw [h1]
          first
          | exact fun msg hm => by simp at hm
          | exact fun hw => ⟨hw, rfl⟩
      | noDocument =>
        have h1 : convert_to_markdown env hasOut =
            fallbackAfterError env hasOut emptyOutputMsg1 := by
          simp [convert_to_markdown, hex, hd]
        rw [h1]
        first
        | exact (fallbackAfterError_write env hasOut emptyOutputMsg1).2
        | exact (fallbackAfterError_write env hasOut emptyOutputMsg1).1
      | raised msg' =>
        have h1 : convert_to_markdown env hasOut = fallbackAfterError env hasOut msg' := by
          simp [convert_to_markdown, hex, hd]
        rw [h1]
        first
        | exact (fallbackAfterError_write env hasOut msg').2
        | exact (fallbackAfterError_write env hasOut msg').1

/-- Witness for C10's amended theorem at concrete environments. -/
theorem C10_amended_validation_and_write_witness :
    convert_to_markdown
        ⟨false, false, "missing.pdf", DoclingOutcome.ok "x", PyPdfOutcome.raised "e"⟩ true =
      ⟨Except.error ("Input not found: " ++ "missing.pdf"), false, []⟩ ∧
    (convert_to_markdown
        ⟨true, false, "d.pdf", DoclingOutcome.raised "boom", PyPdfOutcome.raised "e"⟩
        true).wroteOutput = false ∧
    (true = true ∧
      (convert_to_markdown
          ⟨true, false, "d.pdf", DoclingOutcome.ok "hi", PyPdfOutcome.raised "e"⟩
          true).result.isOk = true) := by
  refine ⟨?_, ?_, ?_⟩
  · exact (C10_amended_validation_and_write _ true).1 rfl
  · exact (C10_amended_validation_and_write _ true).2.1 "boom" (by decide)
  · exact (C10_amended_validation_and_write _ true).2.2 (by decide)

/-! ## `src/app/compare.py` and the comparison tab of `app.py`

`compare_files` is exact string equality.  When the two normalized markdown
files differ, `app.py` computes `difflib.unified_diff(md1_lines, md2_lines,
lineterm='', n=1)`, shows the first 100 diff lines, and reports the count of
the omitted ones.  `difflib` is modelled below: per-line edit operations from
a longest-common-subsequence diff (standing in for `SequenceMatcher`), merged
into opcodes carrying index ranges, grouped with `n` lines of context exactly
as `get_grouped_opcodes` does, and rendered with the `unified_diff` headers
and hunk format. -/

/-- `compare_files`: exact content comparison. -/
def compare_files (c1 c2 : List Char) : Bool :=
  c1 == c2

/-- Tag of one per-line edit operation. -/
inductive DTag
  | del
  | ins
  | eq
deriving DecidableEq

/-- Number of non-matching lines of an edit script. -/
def diffCost (ops : List (DTag × List Char)) : Nat :=
  (ops.filter (fun op => op.1 ≠ DTag.eq)).length

/-- A minimal line edit script between two line sequences (LCS-based),
modelling the matching computed by `difflib.SequenceMatcher`. -/
def diffOps : List (List Char) → List (List Char) → List (DTag × List Char)
  | [], [] => []
  | [], b :: bs => (DTag.ins, b) :: diffOps [] bs
  | a :: as, [] => (DTag.del, a) :: diffOps as []
  | a :: as, b :: bs =>
    if a = b then (DTag.eq, a) :: diffOps as bs
    else
      let d1 := (DTag.del, a) :: diffOps as (b :: bs)
      let d2 := (DTag.ins, b) :: diffOps (a :: as) bs
      if diffCost d1 ≤ diffCost d2 then d1 else d2
termination_by as bs => as.length + bs.length
decreasing_by
  all_goals simp_wf
  all_goals omega

/-- One opcode in the sense of `SequenceMatcher.get_opcodes`: an equal or
non-equal region, with its half-open index ranges into each sequence. -/
structure Code where
  isEq : Bool
  i1 : Nat
  i2 : Nat
  j1 : Nat
  j2 : Nat
deriving DecidableEq

/-- Merge a new opcode with the head of the already-merged tail when both are
equal regions or both are non-equal regions (the regions are adjacent by
construction). -/
def mergeCode (c : Code) (rest : List Code) : List Code :=
  match rest with
  | [] => [c]
  | c2 :: cs =>
    if c2.isEq = c.isEq then ⟨c.isEq, c.i1, c2.i2, c.j1, c2.j2⟩ :: cs
    else c :: c2 :: cs

/-- Convert the per-line operations into maximal opcodes with index ranges,
starting at positions `i` (in `a`) and `j` (in `b`). -/
def buildCodes : List (DTag × List Char) → Nat → Nat → List Code
  | [], _, _ => []
  | (DTag.eq, _) :: rest, i, j => mergeCode ⟨true, i, i + 1, j, j + 1⟩ (buildCodes rest (i + 1) (j + 1))
  | (DTag.del, _) :: rest, i, j => mergeCode ⟨false, i, i + 1, j, j⟩ (buildCodes rest (i + 1) j)
  | (DTag.ins, _) :: rest, i, j => mergeCode ⟨false, i, i, j, j + 1⟩ (buildCodes rest i (j + 1))

/-- `get_grouped_opcodes`: clamp a leading equal opcode to its final `n`
lines. -/
def clampHead (n : Nat) : List Code → List Code
  | [] => []
  | c :: cs =>
    if c.isEq then ⟨true, max c.i1 (c.i2 - n), c.i2, max c.j1 (c.j2 - n), c.j2⟩ :: cs
    else c :: cs

/-- `get_grouped_opcodes`: clamp a trailing equal opcode to its first `n`
lines. -/
def clampLast (n : Nat) : List Code → List Code
  | [] => []
  | [c] =>
    if c.isEq then [⟨true, c.i1, min c.i2 (c.i1 + n), c.j1, min c.j2 (c.j1 + n)⟩]
    else [c]
  | c :: c2 :: cs => c :: clampLast n (c2 :: cs)

/-- `get_grouped_opcodes`: walk the opcodes accumulating the current group;
an interior equal run longer than `2 n` closes the current group (keeping `n`
context lines) and opens the next one (with the run's final `n` lines); the
final group is emitted unless it is a single equal opcode. -/
def groupSplit (n : Nat) : List Code → List Code → List (List Code)
  | [], grp =>
    match grp with
    | [] => []
    | [c] => if c.isEq then [] else [[c]]
    | g => [g]
  | c :: cs, grp =>
    if c.isEq ∧ 2 * n < c.i2 - c.i1 then
      (grp ++ [⟨true, c.i1, min c.i2 (c.i1 + n), c.j1, min c.j2 (c.j1 + n)⟩]) ::
        groupSplit n cs [⟨true, max c.i1 (c.i2 - n), c.i2, max c.j1 (c.j2 - n), c.j2⟩]
    else groupSplit n cs (grp ++ [c])

/-- `SequenceMatcher.get_grouped_opcodes(n)` over the edit script. -/
def groupedOpcodes (n : Nat) (ops : List (DTag × List Char)) : List (List Code) :=
  groupSplit n (clampLast n (clampHead n (buildCodes ops 0 0))) []

/-- Decimal digits of a natural number. -/
def natChars (n : Nat) : List Char :=
  Nat.toDigits 10 n

/-- `difflib._format_range_unified`. -/
def formatRangeUnified (start stop : Nat) : List Char :=
  let length := stop - start
  if length = 1 then natChars (start + 1)
  else natChars (if length = 0 then start else start + 1) ++ ',' :: natChars length

/-- Python slice `xs[i1:i2]`. -/
def sliceSeq (xs : List (List Char)) (i1 i2 : Nat) : List (List Char) :=
  (xs.drop i1).take (i2 - i1)

/-- The lines rendered for one opcode: context lines prefixed with a space,
removed lines with `-`, inserted lines with `+` (a replace renders all its
removed lines, then all its inserted lines). -/
def renderCode (a b : List (List Char)) (c : Code) : List (List Char) :=
  if c.isEq then (sliceSeq a c.i1 c.i2).map (fun l => ' ' :: l)
  else
    (sliceSeq a c.i1 c.i2).map (fun l => '-' :: l) ++
    (sliceSeq b c.j1 c.j2).map (fun l => '+' :: l)

/-- One hunk: the `@@ -r +r @@` header followed by the opcode lines. -/
def renderGroup (a b : List (List Char)) (grp : List Code) : List (List Char) :=
  match grp with
  | [] => []
  | c :: cs =>
    ('@' :: '@' :: ' ' :: '-' ::
        formatRangeUnified c.i1 ((c :: cs).getLastD c).i2 ++
      ' ' :: '+' :: formatRangeUnified c.j1 ((c :: cs).getLastD c).j2 ++
      [' ', '@', '@']) ::
    (c :: cs).flatMap (renderCode a b)

/-- `difflib.unified_diff(a, b, lineterm='', n=n)` with empty file labels: no
output when there is no changed group, otherwise the two file headers followed
by the rendered hunks. -/
def unified_diff_n (n : Nat) (a b : List (List Char)) : List (List Char) :=
  match groupedOpcodes n (diffOps a b) with
  | [] => []
  | gs => "--- ".data :: "+++ ".data :: gs.flatMap (renderGroup a b)

/-- The diff payload of the comparison tab: empty when the files are
identical (the diff branch is not entered), otherwise
`unified_diff(md1_lines, md2_lines, lineterm='', n=1)`. -/
def diffPayload (s1 s2 : List Char) : List (List Char) :=
  if compare_files s1 s2 then []
  else unified_diff_n 1 (splitlinesC s1) (splitlinesC s2)

/-- The diff lines actually rendered: `diff_lines[:100]`. -/
def diffShown (s1 s2 : List Char) : List (List Char) :=
  (diffPayload s1 s2).take 100

/-- The reported overflow: `len(diff_lines) - 100` when more than 100 diff
lines exist, nothing otherwise. -/
def diffOmitted (s1 s2 : List Char) : Option Nat :=
  if 100 < (diffPayload s1 s2).length then some ((diffPayload s1 s2).length - 100)
  else none

/-! ### The unified diff is empty exactly on equal line sequences -/

theorem diffOps_self (a : List (List Char)) :
    diffOps a a = a.map (fun l => (DTag.eq, l)) := by
  induction a with
  | nil => simp [diffOps]
  | cons x xs ih => simp [diffOps, ih]

theorem diffOps_all_eq :
    ∀ (N : Nat) (a b : List (List Char)), a.length + b.length ≤ N →
      (∀ op ∈ diffOps a b, op.1 = DTag.eq) → a = b := by
  intro N
  induction N with
  | zero =>
    intro a b hlen _
    cases a with
    | nil =>
      cases b with
      | nil => rfl
      | cons y ys => simp at hlen
    | cons x xs => simp at hlen
  | succ N ih =>
    intro a b hlen hall
    cases a with
    | nil =>
      cases b with
      | nil => rfl
      | cons y ys =>
        rw [show diffOps [] (y :: ys) = (DTag.ins, y) :: diffOps [] ys by
          simp [diffOps]] at hall
        have := hall (DTag.ins, y) (List.mem_cons_self _ _)
        simp at this
    | cons x xs =>
      cases b with
      | nil =>
        rw [show diffOps (x :: xs) [] = (DTag.del, x) :: diffOps xs [] by
          simp [diffOps]] at hall
        have := hall (DTag.del, x) (List.mem_cons_self _ _)
        simp at this
      | cons y ys =>
        by_cases hxy : x = y
        · subst hxy
          rw [show diffOps (x :: xs) (x :: ys) = (DTag.eq, x) :: diffOps xs ys by
            simp [diffOps]] at hall
          have htail : ∀ op ∈ diffOps xs ys, op.1 = DTag.eq := by
            intro op hop
            exact hall op (List.mem_cons_of_mem _ hop)
          have hlen2 : xs.length + ys.length ≤ N := by
            simp at hlen; omega
          rw [ih xs ys hlen2 htail]
        · exfalso
          rw [show diffOps (x :: xs) (y :: ys) =
              (if diffCost ((DTag.del, x) :: diffOps xs (y :: ys)) ≤
                  diffCost ((DTag.ins, y) :: diffOps (x :: xs) ys)
               then (DTag.del, x) :: diffOps xs (y :: ys)
               else (DTag.ins, y) :: diffOps (x :: xs) ys) by
            rw [diffOps.eq_def]; simp [hxy]] at hall
          by_cases hc : diffCost ((DTag.del, x) :: diffOps xs (y :: ys)) ≤
              diffCost ((DTag.ins, y) :: diffOps (x :: xs) ys)
          · rw [if_pos hc] at hall
            have := hall (DTag.del, x) (List.mem_cons_self _ _)
            simp at this
          · rw [if_neg hc] at hall
            have := hall (DTag.ins, y) (List.mem_cons_self _ _)
            simp at this

theorem diffOps_ne_all_eq (a b : List (List Char)) (h : a ≠ b) :
    ∃ op ∈ diffOps a b, op.1 ≠ DTag.eq := by
  by_contra hc
  push_neg at hc
  exact h (diffOps_all_eq (a.length + b.length) a b le_rfl hc)

theorem mergeCode_exists_ne (c : Code) (rest : List Code)
    (h : c.isEq = false ∨ ∃ d ∈ rest, d.isEq = false) :
    ∃ d ∈ mergeCode c rest, d.isEq = false := by
  cases rest with
  | nil =>
    rcases h with h | ⟨d, hd, _⟩
    · exact ⟨c, by simp [mergeCode], h⟩
    · simp at hd
  | cons c2 cs =>
    by_cases he : c2.isEq = c.isEq
    · rw [show mergeCode c (c2 :: cs) = ⟨c.isEq, c.i1, c2.i2, c.j1, c2.j2⟩ :: cs by
        simp [mergeCode, he]]
      rcases h with h | ⟨d, hd, hdne⟩
      · exact ⟨_, List.mem_cons_self _ _, h⟩
      · rcases List.mem_cons.mp hd with rfl | hd
        · refine ⟨_, List.mem_cons_self _ _, ?_⟩
          show c.isEq = false
          rw [← he]
          exact hdne
        · exact ⟨d, List.mem_cons_of_mem _ hd, hdne⟩
    · rw [show mergeCode c (c2 :: cs) = c :: c2 :: cs by simp [mergeCode, he]]
      rcases h with h | ⟨d, hd, hdne⟩
      · exact ⟨c, List.mem_cons_self _ _, h⟩
      · exact ⟨d, List.mem_cons_of_mem _ hd, hdne⟩

theorem buildCodes_exists_ne :
    ∀ (ops : List (DTag × List Char)) (i j : Nat),
      (∃ op ∈ ops, op.1 ≠ DTag.eq) →
      ∃ d ∈ buildCodes ops i j, d.isEq = false := by
  intro ops
  induction ops with
  | nil => intro i j h; simp at h
  | cons op rest ih =>
    intro i j h
    obtain ⟨t, l⟩ := op
    cases t with
    | eq =>
      have hrest : ∃ op ∈ rest, op.1 ≠ DTag.eq := by
        rcases h with ⟨op, hop, hne⟩
        rcases List.mem_cons.mp hop with rfl | hop
        · simp at hne
        · exact ⟨op, hop, hne⟩
      exact mergeCode_exists_ne _ _ (Or.inr (ih (i + 1) (j + 1) hrest))
    | del => exact mergeCode_exists_ne _ _ (Or.inl rfl)
    | ins => exact mergeCode_exists_ne _ _ (Or.inl rfl)

theorem clampHead_exists_ne (n : Nat) (codes : List Code)
    (h : ∃ d ∈ codes, d.isEq = false) :
    ∃ d ∈ clampHead n codes, d.isEq = false := by
  cases codes with
  | nil => simp at h
  | cons c cs =>
    by_cases hc : c.isEq = true
    · rw [show clampHead n (c :: cs) =
          ⟨true, max c.i1 (c.i2 - n), c.i2, max c.j1 (c.j2 - n), c.j2⟩ :: cs by
        simp [clampHead, hc]]
      rcases h with ⟨d, hd, hdne⟩
      rcases List.mem_cons.mp hd with rfl | hd
      · rw [hc] at hdne; simp at hdne
      · exact ⟨d, List.mem_cons_of_mem _ hd, hdne⟩
    · rw [show clampHead n (c :: cs) = c :: cs by simp [clampHead, hc]]
      exact h

theorem clampLast_exists_ne (n : Nat) :
    ∀ (codes : List Code), (∃ d ∈ codes, d.isEq = false) →
      ∃ d ∈ clampLast n codes, d.isEq = false := by
  intro codes
  induction codes with
  | nil => intro h; simp at h
  | cons c cs ih =>
    intro h
    cases cs with
    | nil =>
      rcases h with ⟨d, hd, hdne⟩
      simp only [List.mem_singleton] at hd
      subst hd
      rw [show clampLast n [d] = [d] by simp [clampLast, hdne]]
      exact ⟨d, List.mem_cons_self _ _, hdne⟩
    | cons c2 cs2 =>
      rw [show clampLast n (c :: c2 :: cs2) = c :: clampLast n (c2 :: cs2) from rfl]
      rcases h with ⟨d, hd, hdne⟩
      rcases List.mem_cons.mp hd with rfl | hd
      · exact ⟨d, List.mem_cons_self _ _, hdne⟩
      · obtain ⟨e, he, hene⟩ := ih ⟨d, hd, hdne⟩
        exact ⟨e, List.mem_cons_of_mem _ he, hene⟩

theorem groupSplit_ne_nil (n : Nat) :
    ∀ (cs grp : List Code), (∃ d ∈ grp ++ cs, d.isEq = false) →
      groupSplit n cs grp ≠ [] := by
  intro cs
  induction cs with
  | nil =>
    intro grp h
    rcases h with ⟨d, hd, hdne⟩
    rw [List.append_nil] at hd
    cases grp with
    | nil => simp at hd
    | cons c cs2 =>
      cases cs2 with
      | nil =>
        simp only [List.mem_singleton] at hd
        subst hd
        rw [show groupSplit n [] [d] = [[d]] by simp [groupSplit, hdne]]
        simp
      | cons c2 cs3 =>
        rw [show groupSplit n [] (c :: c2 :: cs3) = [c :: c2 :: cs3] by
          simp [groupSplit]]
        simp
  | cons c cs ih =>
    intro grp h
    by_cases hsc : c.isEq = true ∧ 2 * n < c.i2 - c.i1
    · rw [show groupSplit n (c :: cs) grp =
          (grp ++ [⟨true, c.i1, min c.i2 (c.i1 + n), c.j1, min c.j2 (c.j1 + n)⟩]) ::
            groupSplit n cs
              [⟨true, max c.i1 (c.i2 - n), c.i2, max c.j1 (c.j2 - n), c.j2⟩] by
        simp [groupSplit, hsc.1, hsc.2]]
      simp
    · rw [show groupSplit n (c :: cs) grp = groupSplit n cs (grp ++ [c]) by
        simp only [groupSplit]
        rw [if_neg (by simpa using hsc)]]
      apply ih (grp ++ [c])
      rcases h with ⟨d, hd, hdne⟩
      refine ⟨d, ?_, hdne⟩
      rw [List.append_assoc]
      simpa using hd

theorem unified_diff_ne_nil (n : Nat) (a b : List (List Char)) (h : a ≠ b) :
    unified_diff_n n a b ≠ [] := by
  have h1 := diffOps_ne_all_eq a b h
  have h2 := buildCodes_exists_ne (diffOps a b) 0 0 h1
  have h3 := clampHead_exists_ne n _ h2
  have h4 := clampLast_exists_ne n _ h3
  have h5 : groupedOpcodes n (diffOps a b) ≠ [] := by
    unfold groupedOpcodes
    apply groupSplit_ne_nil
    simpa using h4
  unfold unified_diff_n
  cases hg : groupedOpcodes n (diffOps a b) with
  | nil => exact absurd hg h5
  | cons g gs => simp

theorem buildCodes_map_eq :
    ∀ (ls : List (List Char)) (i j : Nat),
      buildCodes (ls.map (fun l => (DTag.eq, l))) i j =
        if ls = [] then []
        else [⟨true, i, i + ls.length, j, j + ls.length⟩] := by
  intro ls
  induction ls with
  | nil => intro i j; simp [buildCodes]
  | cons x xs ih =>
    intro i j
    rw [List.map_cons]
    rw [show buildCodes ((DTag.eq, x) :: xs.map (fun l => (DTag.eq, l))) i j =
        mergeCode ⟨true, i, i + 1, j, j + 1⟩
          (buildCodes (xs.map (fun l => (DTag.eq, l))) (i + 1) (j + 1)) from rfl]
    rw [ih (i + 1) (j + 1)]
    cases xs with
    | nil => simp [mergeCode]
    | cons y ys =>
      rw [if_neg (by simp)]
      rw [if_neg (by simp)]
      simp only [mergeCode, if_pos rfl]
      simp only [List.length_cons, List.cons.injEq, Code.mk.injEq]
      rw [if_pos trivial]
      simp only [List.cons.injEq, Code.mk.injEq, true_and, and_true]
      omega

theorem groupSplit_single_eq (n : Nat) (c : Code) (hc : c.isEq = true)
    (hlen : c.i2 - c.i1 ≤ n) :
    groupSplit n [c] [] = [] := by
  have hcond : ¬(c.isEq = true ∧ 2 * n < c.i2 - c.i1) := by
    intro hcontra
    omega
  rw [show groupSplit n [c] [] = groupSplit n [] ([] ++ [c]) by
    simp only [groupSplit]
    rw [if_neg (by simpa using hcond)]]
  rw [List.nil_append]
  simp [groupSplit, hc]

theorem unified_diff_self (n : Nat) (a : List (List Char)) :
    unified_diff_n n a a = [] := by
  have hg : groupedOpcodes n (diffOps a a) = [] := by
    unfold groupedOpcodes
    rw [diffOps_self, buildCodes_map_eq]
    cases a with
    | nil => simp [clampHead, clampLast, groupSplit]
    | cons x xs =>
      rw [if_neg (by simp)]
      rw [show clampHead n [(⟨true, 0, 0 + (x :: xs).length, 0, 0 + (x :: xs).length⟩ : Code)] =
          [⟨true, max 0 (0 + (x :: xs).length - n), 0 + (x :: xs).length,
            max 0 (0 + (x :: xs).length - n), 0 + (x :: xs).length⟩] by
        simp [clampHead]]
      rw [show ∀ (d : Code), d.isEq = true → clampLast n [d] =
          [⟨true, d.i1, min d.i2 (d.i1 + n), d.j1, min d.j2 (d.j1 + n)⟩] from
        fun d hd => by simp [clampLast, hd]]
      · apply groupSplit_single_eq
        · rfl
        · simp
          omega
      · rfl
  unfold unified_diff_n
  rw [hg]

theorem unified_diff_nil_iff (n : Nat) (a b : List (List Char)) :
    unified_diff_n n a b = [] ↔ a = b := by
  constructor
  · intro h
    by_contra hne
    exact unified_diff_ne_nil n a b hne h
  · intro h
    subst h
    exact unified_diff_self n a

theorem splitlinesC_renderLines (a : List (List Char)) (h : ∀ l ∈ a, '\n' ∉ l) :
    splitlinesC (renderLines a) = if a = [] then [[]] else a := by
  cases a with
  | nil => decide
  | cons x xs =>
    rw [if_neg (by simp)]
    rw [renderLines_eq_lineBlocks _ (by simp)]
    exact splitlinesC_lineBlocks _ h

/-- C5: for normalized documents (newline-free line sequences, rendered to
file contents with a trailing newline), the comparison is `identical` exactly
when the diff payload is empty, and comparing a document with itself is
`identical`. -/
theorem C5_identical_iff_empty_diff :
    ∀ (a b : List (List Char)),
      (∀ l ∈ a, '\n' ∉ l) → (∀ l ∈ b, '\n' ∉ l) →
      ((compare_files (renderLines a) (renderLines b) = true ↔
          diffPayload (renderLines a) (renderLines b) = []) ∧
        compare_files (renderLines a) (renderLines a) = true) := by
  intro a b ha hb
  constructor
  · constructor
    · intro hid
      unfold diffPayload
      rw [if_pos hid]
    · intro hpay
      unfold diffPayload at hpay
      by_cases hc : compare_files (renderLines a) (renderLines b) = true
      · exact hc
      · rw [if_neg (by simpa using hc)] at hpay
        have hsplit := (unified_diff_nil_iff 1 _ _).mp hpay
        rw [splitlinesC_renderLines a ha, splitlinesC_renderLines b hb] at hsplit
        have hren : renderLines a = renderLines b := by
          by_cases haa : a = []
          · by_cases hbb : b = []
            · rw [haa, hbb]
            · rw [if_pos haa, if_neg hbb] at hsplit
              rw [haa, ← hsplit]
              decide
          · by_cases hbb : b = []
            · rw [if_neg haa, if_pos hbb] at hsplit
              rw [hbb, hsplit]
              decide
            · rw [if_neg haa, if_neg hbb] at hsplit
              rw [hsplit]
        unfold compare_files
        exact beq_iff_eq.mpr hren
  · unfold compare_files
    exact beq_self_eq_true _

/-- Witness for C5 at the concrete documents ["A"] and ["B"]. -/
theorem C5_identical_iff_empty_diff_witness :
    (compare_files (renderLines [['A']]) (renderLines [['B']]) = true ↔
        diffPayload (renderLines [['A']]) (renderLines [['B']]) = []) ∧
      compare_files (renderLines [['A']]) (renderLines [['A']]) = true :=
  C5_identical_iff_empty_diff [['A']] [['B']] (by decide) (by decide)

/-- C6: the comparator's diff payload is `unified_diff` with a context window
of 1 line; the rendered diff is a prefix of the payload of length
`min (payload length) 100`; the rendered length plus the reported omitted
count always equals the payload length (so the omitted count is exact); and
no count is reported exactly when the payload has at most 100 lines. -/
theorem C6_diff_truncation_bounds :
    ∀ (s1 s2 : List Char),
      diffPayload s1 s2 =
        (if compare_files s1 s2 then []
         else unified_diff_n 1 (splitlinesC s1) (splitlinesC s2)) ∧
      diffShown s1 s2 <+: diffPayload s1 s2 ∧
      (diffShown s1 s2).length = min (diffPayload s1 s2).length 100 ∧
      (diffShown s1 s2).length + (diffOmitted s1 s2).getD 0 =
        (diffPayload s1 s2).length ∧
      (diffOmitted s1 s2 = none ↔ (diffPayload s1 s2).length ≤ 100) := by
  intro s1 s2
  refine ⟨rfl, List.take_prefix _ _, ?_, ?_, ?_⟩
  · unfold diffShown
    rw [List.length_take]
    exact Nat.min_comm _ _
  · unfold diffShown diffOmitted
    by_cases h : 100 < (diffPayload s1 s2).length
    · rw [if_pos h]
      rw [List.length_take]
      simp
      omega
    · rw [if_neg h]
      rw [List.length_take]
      simp
      omega
  · unfold diffOmitted
    by_cases h : 100 < (diffPayload s1 s2).length
    · rw [if_pos h]
      simp
      omega
    · rw [if_neg h]
      simp
      omega
